import Mathlib

/-!
Shallow embedding of the LEGG-Cal scheduling core
(`src/lib/scheduler-utils.ts`, second revision of the file: the one using
`getCapacityForDate` and `dailyCapacityByDay`), together with proofs of the
specification's testable properties.

Modelling conventions:
* Calendar dates are day indices (`Nat`) counted from an epoch Monday,
  so the day of week is `d % 7` with Monday = 0, …, Friday = 4, Saturday = 5,
  Sunday = 6.  `date-fns`'s `isWeekend`/`nextMonday`/`addDays` become
  arithmetic on these indices.
* A JavaScript `Date` object is `JSDate := Option Nat`; `none` models an
  Invalid Date (whose comparisons are all `false` and which `isWeekend`
  reports as not a weekend, mirroring NaN semantics).
* A date string is `DateStr`: `DateStr.valid d` is the canonical
  `yyyy-MM-dd` rendering of day `d` (what `format` produces and `parseISO`
  accepts), `DateStr.malformed s` an unparsable string.  String equality
  (`===`) is `DateStr` equality.
* JavaScript numbers holding hours are modelled exactly as rationals `ℚ`.
* The JavaScript `Map` used for the schedule is an insertion-ordered
  association list; `Map.get`/`Map.set` become `schedGet`/`schedSet`.
* `console.warn` inside the allocator is modelled by returning the list of
  ids of jobs whose safety bound fired.
* `JSON.parse(JSON.stringify(jobs))` is a deep copy; on our immutable values
  it is the identity, so it is dropped.
* The ambient clock (`new Date()`), used only in fallbacks for invalid
  inputs, is passed as an explicit `today : Nat` argument.
-/

namespace LEGGCal

/-- `date-fns` `isWeekend`: Saturday (5) or Sunday (6). -/
def isWeekend (d : Nat) : Bool := d % 7 == 5 || d % 7 == 6

/-- `date-fns` `nextMonday`: the Monday strictly after `d`. -/
def nextMonday (d : Nat) : Nat := d + (7 - d % 7)

/-- A JavaScript `Date` object; `none` is an Invalid Date. -/
abbrev JSDate := Option Nat

/-- `date-fns` `isValid` on a `Date` object. -/
def jsIsValid (d : JSDate) : Bool := d.isSome

/-- `isWeekend` on a `Date` object: an Invalid Date has day-of-week NaN,
which compares equal to neither 0 nor 6, hence `false`. -/
def jsIsWeekend : JSDate → Bool
  | some d => isWeekend d
  | none => false

/-- `nextMonday` on a `Date` object: arithmetic on NaN stays NaN. -/
def jsNextMonday : JSDate → JSDate
  | some d => some (nextMonday d)
  | none => none

/-- JavaScript `<` on `Date` objects: comparisons with an Invalid Date
(NaN valueOf) are `false`. -/
def jsLt : JSDate → JSDate → Bool
  | some a, some b => decide (a < b)
  | _, _ => false

/-- A date string: either the canonical `yyyy-MM-dd` form of a day, or an
unparsable string. -/
inductive DateStr where
  | valid (d : Nat)
  | malformed (s : String)
deriving DecidableEq, Repr

/-- `date-fns` `parseISO`: canonical strings parse, malformed ones give an
Invalid Date. -/
def parseISO : DateStr → JSDate
  | .valid d => some d
  | .malformed _ => none

/-- `format(date, 'yyyy-MM-dd')` on a valid `Date`. -/
def formatDate (d : Nat) : DateStr := .valid d

/-- The day index of a date string (0 for malformed; used only to state
order-of-dates properties about strings that are in fact valid). -/
def DateStr.dayOf : DateStr → Nat
  | .valid d => d
  | .malformed _ => 0

/-- Whether a date string denotes a Saturday or Sunday. -/
def DateStr.isSatSun : DateStr → Bool
  | .valid d => isWeekend d
  | .malformed _ => false

/-- One `{date, hours}` scheduled segment of a job. -/
structure Segment where
  date : DateStr
  hours : ℚ
deriving DecidableEq, Repr

/-- The `Job` record of `src/types/scheduler.ts`.  `activityType` is kept as
a plain string; absent optional fields are `none`.  `scheduledSegments`,
optional in TypeScript, is the empty list when absent (the allocator always
overwrites it). -/
structure Job where
  id : String
  name : String
  requiredHours : ℚ
  isUrgent : Bool
  color : String
  activityType : String
  activityOther : Option String
  quoteNumber : Option String
  scheduledSegments : List Segment
  preferredStartDate : Option DateStr
deriving DecidableEq, Repr

/-- The `DailyAssignment` record. -/
structure DailyAssignment where
  date : DateStr
  jobId : String
  jobName : String
  hoursAssigned : ℚ
  color : String
  isUrgent : Bool
  activityType : String
  activityOther : Option String
  quoteNumber : Option String
deriving DecidableEq, Repr

/-- The `DayData` record. -/
structure DayData where
  date : DateStr
  assignments : List DailyAssignment
  totalHoursAssigned : ℚ
deriving DecidableEq, Repr

/-- The five per-weekday default capacities of `ScheduleSettings`. -/
structure CapacityByDay where
  monday : ℚ
  tuesday : ℚ
  wednesday : ℚ
  thursday : ℚ
  friday : ℚ
deriving DecidableEq, Repr

/-- One `{date, hours}` capacity override. -/
structure CapacityOverride where
  date : DateStr
  hours : ℚ
deriving DecidableEq, Repr

/-- The `ScheduleSettings` record.  The optional `capacityOverrides` array is
the empty list when absent (`?.find` on `undefined` and `find` on `[]` both
yield no override). -/
structure ScheduleSettings where
  dailyCapacityByDay : CapacityByDay
  capacityOverrides : List CapacityOverride
deriving DecidableEq, Repr

/-- `getCapacityForDate` (scheduler-utils.ts, lines 185–203): the override
for the exact date string wins; otherwise invalid or weekend dates have
capacity 0; otherwise the weekday's configured default.  `getDay`'s
Sunday-based index 1..5 becomes our Monday-based `d % 7 = 0..4`. -/
def getCapacityForDate (dateStr : DateStr) (settings : ScheduleSettings) : ℚ :=
  match settings.capacityOverrides.find? (fun o => o.date == dateStr) with
  | some o => o.hours
  | none =>
    match dateStr with
    | .malformed _ => 0
    | .valid d =>
      if isWeekend d then 0
      else
        match d % 7 with
        | 0 => settings.dailyCapacityByDay.monday
        | 1 => settings.dailyCapacityByDay.tuesday
        | 2 => settings.dailyCapacityByDay.wednesday
        | 3 => settings.dailyCapacityByDay.thursday
        | 4 => settings.dailyCapacityByDay.friday
        | _ => 0

/-- `date-fns` `eachDayOfInterval`: all days from `start` to `stop`
inclusive (empty when `stop < start`). -/
def eachDayOfInterval (start stop : Nat) : List Nat :=
  (List.range (stop + 1 - start)).map (fun i => start + i)

/-- `generateDateRange` (scheduler-utils.ts, lines 206–231): normalize the
start to the next Monday if it is a weekend (falling back to `today` when
the start date is invalid), take the `numDaysInPeriod` consecutive calendar
days from there, keep the weekdays, and format them. -/
def generateDateRange (today : Nat) (startDate : JSDate) (numDaysInPeriod : Nat) :
    List DateStr :=
  match startDate with
  | none =>
    let effectiveStartDate := if isWeekend today then nextMonday today else today
    let endDate := effectiveStartDate + (numDaysInPeriod - 1)
    ((eachDayOfInterval effectiveStartDate endDate).filter
      (fun d => !isWeekend d)).map formatDate
  | some s =>
    let effectiveStartDate := if isWeekend s then nextMonday s else s
    let endDate := effectiveStartDate + (numDaysInPeriod - 1)
    ((eachDayOfInterval effectiveStartDate endDate).filter
      (fun d => !isWeekend d)).map formatDate

/-- `String.localeCompare`, for the ASCII ids the app generates: ordinary
lexicographic comparison, reported as a negative / zero / positive number. -/
def localeCompare (a b : String) : Int :=
  if a < b then -1 else if b < a then 1 else 0

/-- The comparator passed to `updatedJobs.sort` inside `allocateJobs`
(scheduler-utils.ts, lines 246–265): urgency first, then weekend-normalized
preferred start dates (a job with a date before a job without), then the id
tie-break.  `let dateA = a.preferredStartDate ? parseISO(…) : null` gives an
`Option JSDate`: `none` is `null`, `some none` an Invalid Date object (which
is truthy, is not a weekend, and compares `false` both ways). -/
def compareJobs (a b : Job) : Int :=
  if a.isUrgent && !b.isUrgent then -1
  else if !a.isUrgent && b.isUrgent then 1
  else
    let dateA : Option JSDate :=
      (a.preferredStartDate.map parseISO).map
        (fun d => if jsIsWeekend d then jsNextMonday d else d)
    let dateB : Option JSDate :=
      (b.preferredStartDate.map parseISO).map
        (fun d => if jsIsWeekend d then jsNextMonday d else d)
    match dateA, dateB with
    | some da, some db =>
      if jsLt da db then -1
      else if jsLt db da then 1
      else localeCompare a.id b.id
    | some _, none => -1
    | none, some _ => 1
    | none, none => localeCompare a.id b.id

/-- Insert into a sorted list, keeping earlier-inserted elements first on
ties (the stable placement JavaScript's `Array.prototype.sort` guarantees). -/
def insertByCmp (cmp : α → α → Int) (x : α) : List α → List α
  | [] => [x]
  | y :: ys => if cmp x y ≤ 0 then x :: y :: ys else y :: insertByCmp cmp x ys

/-- Stable insertion sort by a comparator, modelling `Array.prototype.sort`
(stable per the ECMAScript specification). -/
def sortByCmp (cmp : α → α → Int) : List α → List α
  | [] => []
  | x :: xs => insertByCmp cmp x (sortByCmp cmp xs)

/-- The insertion-ordered `Map<string, DayData>` of the allocator. -/
abbrev Schedule := List (DateStr × DayData)

/-- `Map.get`. -/
def schedGet (sched : Schedule) (k : DateStr) : Option DayData :=
  (sched.find? (fun p => p.1 == k)).map Prod.snd

/-- `Map.set`: overwrite in place when the key exists, append otherwise. -/
def schedSet (sched : Schedule) (k : DateStr) (v : DayData) : Schedule :=
  if sched.any (fun p => p.1 == k) then
    sched.map (fun p => if p.1 == k then (k, v) else p)
  else sched ++ [(k, v)]

/-- The body of one allocator loop iteration on an (already
weekday-normalized) day `d` (scheduler-utils.ts, lines 299–328): look up the
capacity and the day's record, grant `min(remaining, available)`, and when
the grant is positive record the segment and the assignment snapshot. -/
def allocOnDay (job : Job) (settings : ScheduleSettings) (sched : Schedule)
    (d : Nat) (remaining : ℚ) : ℚ × Option Segment × Schedule :=
  let dateStr := formatDate d
  let dayCapacity := getCapacityForDate dateStr settings
  let dayData := (schedGet sched dateStr).getD ⟨dateStr, [], 0⟩
  let availableToday := max 0 (dayCapacity - dayData.totalHoursAssigned)
  let allocateNow := min remaining availableToday
  if 0 < allocateNow then
    let assignment : DailyAssignment :=
      ⟨dateStr, job.id, job.name, allocateNow, job.color, job.isUrgent,
        job.activityType, job.activityOther, job.quoteNumber⟩
    let dayData' : DayData :=
      ⟨dayData.date, dayData.assignments ++ [assignment],
        dayData.totalHoursAssigned + allocateNow⟩
    (remaining - allocateNow, some ⟨dateStr, allocateNow⟩,
      schedSet sched dateStr dayData')
  else (remaining, none, sched)

/-- Result of one job's `while` loop.  `warned` is true exactly when the
`console.warn` branch fired (safety bound reached with hours remaining);
`iterations` counts executions of the loop body (`safetyCounter`). -/
structure LoopResult where
  remainingHours : ℚ
  segments : List Segment
  sched : Schedule
  warned : Bool
  iterations : Nat
deriving DecidableEq, Repr

/-- `maxSchedulingDays = 365 * 2` (scheduler-utils.ts, line 289). -/
def maxSchedulingDays : Nat := 365 * 2

/-- One job's allocation `while` loop (scheduler-utils.ts, lines 291–341),
by recursion on the remaining iteration budget
(`fuel = maxSchedulingDays - safetyCounter`): while hours remain, normalize
the current day to a weekday, try to allocate on it, step to the next
calendar day, and give up with a warning when the safety bound is hit. -/
def allocLoop (job : Job) (settings : ScheduleSettings) :
    Nat → Nat → ℚ → List Segment → Schedule → LoopResult
  | 0, _, remaining, segs, sched => ⟨remaining, segs, sched, false, 0⟩
  | fuel + 1, currentDate, remaining, segs, sched =>
    if remaining ≤ 0 then ⟨remaining, segs, sched, false, 0⟩
    else
      let d := if isWeekend currentDate then nextMonday currentDate else currentDate
      let step := allocOnDay job settings sched d remaining
      let remaining' := step.1
      let segs' := segs ++ step.2.1.toList
      let sched' := step.2.2
      if 0 < remaining' then
        if fuel = 0 then ⟨remaining', segs', sched', true, 1⟩
        else
          let res := allocLoop job settings fuel (d + 1) remaining' segs' sched'
          ⟨res.remainingHours, res.segments, res.sched, res.warned, res.iterations + 1⟩
      else ⟨remaining', segs', sched', false, 1⟩

/-- The job's effective start date (scheduler-utils.ts, lines 271–283): its
valid preferred start date when that is on or after the planning start,
else the planning start; then normalized to the next weekday. -/
def effectiveStart (planningStartDate : Nat) (job : Job) : Nat :=
  let jobStartDate :=
    match job.preferredStartDate with
    | none => planningStartDate
    | some prefStr =>
      match parseISO prefStr with
      | none => planningStartDate
      | some preferred =>
        if planningStartDate ≤ preferred then preferred else planningStartDate
  if isWeekend jobStartDate then nextMonday jobStartDate else jobStartDate

/-- Process one job of the sorted list (scheduler-utils.ts, lines 267–341):
reset its segments, run the allocation loop from its effective start, and
store the produced segments on the (copied) job. -/
def processJob (settings : ScheduleSettings) (planningStartDate : Nat)
    (sched : Schedule) (job : Job) : Schedule × Job × Bool :=
  let res := allocLoop job settings maxSchedulingDays
    (effectiveStart planningStartDate job) job.requiredHours [] sched
  (res.sched, { job with scheduledSegments := res.segments }, res.warned)

/-- The `for (const job of updatedJobs)` pass, threading the schedule map and
collecting the ids of jobs whose safety bound warned. -/
def allocFold (settings : ScheduleSettings) (planningStartDate : Nat) :
    Schedule → List Job → Schedule × List Job × List String
  | sched, [] => (sched, [], [])
  | sched, job :: jobs =>
    let step := processJob settings planningStartDate sched job
    let rest := allocFold settings planningStartDate step.1 jobs
    (rest.1, step.2.1 :: rest.2.1,
      (if step.2.2 then [job.id] else []) ++ rest.2.2)

/-- Result of `allocateJobs`; `warnings` models the `console.warn` calls. -/
structure AllocResult where
  allocatedSchedule : Schedule
  updatedJobs : List Job
  warnings : List String
deriving DecidableEq, Repr

/-- Normalization of the planning start date (scheduler-utils.ts, lines
241–244): parse it; if invalid or a weekend, replace it by the next Monday
after it (after today, when unparsable). -/
def parsePlanningStart (today : Nat) (s : DateStr) : Nat :=
  match parseISO s with
  | some d => if isWeekend d then nextMonday d else d
  | none => nextMonday today

/-- `allocateJobs` (scheduler-utils.ts, lines 233–344): deep-copy the job
list (identity on values), sort it with `compareJobs`, and run the greedy
per-job allocation pass from the normalized planning start date. -/
def allocateJobs (today : Nat) (jobsToAllocate : List Job)
    (settings : ScheduleSettings) (planningStartDateString : DateStr) :
    AllocResult :=
  let planningStartDate := parsePlanningStart today planningStartDateString
  let sorted := sortByCmp compareJobs jobsToAllocate
  let res := allocFold settings planningStartDate [] sorted
  ⟨res.1, res.2.1, res.2.2⟩

/-! ### Derived notions used to state the specification's claims -/

/-- The spec's `nextWeekday`: snap a weekend day forward to the following
Monday, leave weekdays unchanged. -/
def nextWeekday (d : Nat) : Nat := if isWeekend d then nextMonday d else d

/-- Total of the `hoursAssigned` fields of a day's assignments. -/
def sumAssign (l : List DailyAssignment) : ℚ := (l.map DailyAssignment.hoursAssigned).sum

/-- Total of the `hours` fields of a job's segments. -/
def sumSegs (l : List Segment) : ℚ := (l.map Segment.hours).sum

/-- A job with its `scheduledSegments` cleared (everything the allocator's
sort and per-job pass read survives this). -/
def eraseSegs (j : Job) : Job := { j with scheduledSegments := [] }

/-- Settings in which every day's capacity is zero. -/
def zeroSettings : ScheduleSettings := ⟨⟨0, 0, 0, 0, 0⟩, []⟩

/-- Whether a job's preferred start date, if present, is a parsable date
string (the job-ingestion surface of §6 guarantees this). -/
def hasParsablePref (j : Job) : Bool :=
  match j.preferredStartDate with
  | some (.malformed _) => false
  | _ => true

/-- Modelled from the spec (§4.3 / claim C4): a job's effective preferred
start date — its `preferredStartDate`, normalized to the next weekday if it
falls on a weekend, or no preference when absent. -/
def effectivePreferred (j : Job) : Option Nat :=
  match j.preferredStartDate with
  | none => none
  | some ds =>
    match parseISO ds with
    | none => none
    | some d => some (nextWeekday d)

/-- Modelled from the spec (§4.3 / claim C4): the prioritizer's three-step
comparator — urgency, then effective preferred start dates (earlier first, a
date before no date), then ascending lexicographic id. -/
def claimCompare (a b : Job) : Int :=
  if a.isUrgent = true ∧ b.isUrgent = false then -1
  else if b.isUrgent = true ∧ a.isUrgent = false then 1
  else
    match effectivePreferred a, effectivePreferred b with
    | some da, some db =>
      if da < db then -1
      else if db < da then 1
      else if a.id < b.id then -1 else if b.id < a.id then 1 else 0
    | some _, none => -1
    | none, some _ => 1
    | none, none => if a.id < b.id then -1 else if b.id < a.id then 1 else 0

/-- Whether a date string denotes a valid weekday date. -/
def isValidWeekdayStr : DateStr → Bool
  | .valid d => !isWeekend d
  | .malformed _ => false

/-- The configured default hours for a day's weekday (Monday through Friday
mapped to the five configured values; 0 on weekends). -/
def weekdayDefault (c : CapacityByDay) (d : Nat) : ℚ :=
  if d % 7 = 0 then c.monday
  else if d % 7 = 1 then c.tuesday
  else if d % 7 = 2 then c.wednesday
  else if d % 7 = 3 then c.thursday
  else if d % 7 = 4 then c.friday
  else 0

/-- Modelled from the amended claim C2: the capacity override for the exact
date string is checked first and is authoritative even for weekend or
malformed dates; with no override, non-weekday dates have capacity 0 and
weekdays their configured default. -/
def capacityClaimAmended (ds : DateStr) (settings : ScheduleSettings) : ℚ :=
  match (settings.capacityOverrides.find? (fun o => o.date == ds)).map CapacityOverride.hours with
  | some h => h
  | none =>
    if isValidWeekdayStr ds then weekdayDefault settings.dailyCapacityByDay ds.dayOf
    else 0

/-- The per-day bookkeeping invariant of the schedule map: every stored
day's total equals the sum of its assignments' hours, stays within that
date's effective capacity, and is keyed by a weekday date. -/
def SchedOK (settings : ScheduleSettings) (sched : Schedule) : Prop :=
  ∀ p ∈ sched,
    p.2.totalHoursAssigned = sumAssign p.2.assignments ∧
    p.2.totalHoursAssigned ≤ getCapacityForDate p.1 settings ∧
    p.1.isSatSun = false

/-! ### Basic facts about the weekday arithmetic -/

theorem isWeekend_eq_true_iff {d : Nat} : isWeekend d = true ↔ d % 7 = 5 ∨ d % 7 = 6 := by
  simp [isWeekend]

theorem isWeekend_eq_false_iff {d : Nat} : isWeekend d = false ↔ d % 7 ≠ 5 ∧ d % 7 ≠ 6 := by
  simp [isWeekend]

theorem nextMonday_mod_seven (d : Nat) : nextMonday d % 7 = 0 := by
  unfold nextMonday
  omega

theorem isWeekend_nextMonday (d : Nat) : isWeekend (nextMonday d) = false := by
  rw [isWeekend_eq_false_iff, nextMonday_mod_seven]
  omega

theorem isWeekend_nextWeekday (d : Nat) : isWeekend (nextWeekday d) = false := by
  unfold nextWeekday
  by_cases h : isWeekend d
  · simp [h, isWeekend_nextMonday]
  · simp [h]

theorem le_nextMonday (d : Nat) : d ≤ nextMonday d := by
  unfold nextMonday
  omega

theorem le_nextWeekday (d : Nat) : d ≤ nextWeekday d := by
  unfold nextWeekday
  split
  · exact le_nextMonday d
  · exact le_rfl

theorem nextWeekday_eq_of_not_weekend {d : Nat} (h : isWeekend d = false) :
    nextWeekday d = d := by
  simp [nextWeekday, h]

/-- C2 is false on the code as stated: `getCapacityForDate` checks the
capacity override before the weekend test, so a Saturday carrying an
override returns the override's hours, not 0. -/
theorem getCapacityForDate_weekend_override_counterexample :
    (DateStr.valid 5).isSatSun = true ∧
    getCapacityForDate (DateStr.valid 5)
      ⟨⟨8, 8, 8, 8, 8⟩, [⟨DateStr.valid 5, 5⟩]⟩ = 5 ∧
    (5 : ℚ) ≠ 0 := by
  refine ⟨rfl, rfl, by norm_num⟩

/-- C2 (amended): the capacity resolver checks the exact-date override
first — an existing override is authoritative even on weekend or malformed
dates; with no override, non-weekday dates resolve to 0 and weekdays to the
configured default for their day of week. -/
theorem getCapacityForDate_amended (ds : DateStr) (settings : ScheduleSettings) :
    getCapacityForDate ds settings = capacityClaimAmended ds settings := by
  unfold getCapacityForDate capacityClaimAmended
  cases hf : settings.capacityOverrides.find? (fun o => o.date == ds) with
  | some o => simp
  | none =>
    simp only [Option.map_none']
    cases ds with
    | malformed s => simp [isValidWeekdayStr]
    | valid d =>
      cases hw : isWeekend d with
      | true => simp [isValidWeekdayStr, hw]
      | false =>
        have h7 : d % 7 = 0 ∨ d % 7 = 1 ∨ d % 7 = 2 ∨ d % 7 = 3 ∨ d % 7 = 4 := by
          have := isWeekend_eq_false_iff.mp hw
          omega
        rcases h7 with h | h | h | h | h <;>
          simp [isValidWeekdayStr, hw, weekdayDefault, DateStr.dayOf, h]

/-- C3 is false on the code as stated: for the valid Monday start day 0 and
`numWeekdays = 7`, `generateDateRange` yields only 5 dates (it filters a
7-calendar-day window down to its weekdays), not exactly 7. -/
theorem generateDateRange_counterexample :
    jsIsValid (some (0 : Nat)) = true ∧ 0 < 7 ∧
    (generateDateRange 0 (some 0) 7).length = 5 ∧ (5 : Nat) ≠ 7 := by
  refine ⟨rfl, by norm_num, by decide, by norm_num⟩

/-- C3 (amended): for a valid start date and positive `numDaysInPeriod`,
`generateDateRange` returns precisely the weekday dates of the
`numDaysInPeriod` consecutive calendar days beginning at the start day
normalized to the next weekday, in strictly increasing order — hence at
most `numDaysInPeriod` dates, and fewer whenever the window meets a
weekend. -/
theorem eachDayOfInterval_window (e num : Nat) (hnum : 1 ≤ num) :
    eachDayOfInterval e (e + (num - 1)) = (List.range num).map (fun i => e + i) := by
  unfold eachDayOfInterval
  congr 2
  omega

theorem generateDateRange_amended (today d : Nat) (num : Nat) (hnum : 1 ≤ num) :
    (∀ x : Nat, DateStr.valid x ∈ generateDateRange today (some d) num ↔
      (nextWeekday d ≤ x ∧ x < nextWeekday d + num ∧ isWeekend x = false)) ∧
    (∀ s ∈ generateDateRange today (some d) num, s.isSatSun = false) ∧
    (generateDateRange today (some d) num).Pairwise (fun a b => a.dayOf < b.dayOf) ∧
    (generateDateRange today (some d) num).length ≤ num := by
  have hrange : generateDateRange today (some d) num =
      (((List.range num).map (fun i => nextWeekday d + i)).filter
        (fun x => !isWeekend x)).map formatDate := by
    show ((eachDayOfInterval (nextWeekday d) (nextWeekday d + (num - 1))).filter
        (fun x => !isWeekend x)).map formatDate = _
    rw [eachDayOfInterval_window _ _ hnum]
  rw [hrange]
  refine ⟨?_, ?_, ?_, ?_⟩
  · intro x
    simp only [List.mem_map, List.mem_filter, formatDate, DateStr.valid.injEq,
      Bool.not_eq_true', List.mem_range]
    constructor
    · rintro ⟨a, ⟨⟨i, hi, rfl⟩, hw⟩, rfl⟩
      exact ⟨Nat.le_add_right _ _, by omega, hw⟩
    · rintro ⟨h1, h2, h3⟩
      exact ⟨x, ⟨⟨x - nextWeekday d, by omega, by omega⟩, h3⟩, rfl⟩
  · intro s hs
    simp only [List.mem_map, List.mem_filter, Bool.not_eq_true'] at hs
    obtain ⟨a, ⟨-, hw⟩, rfl⟩ := hs
    simpa [formatDate, DateStr.isSatSun] using hw
  · rw [List.pairwise_map]
    refine List.Pairwise.sublist (List.filter_sublist _) ?_
    rw [List.pairwise_map]
    refine (List.pairwise_lt_range num).imp ?_
    intro a b hab
    simp only [formatDate, DateStr.dayOf]
    omega
  · rw [List.length_map]
    exact le_trans (List.length_filter_le _ _) (by simp)

theorem codeEffectivePref (j : Job) (h : hasParsablePref j = true) :
    (j.preferredStartDate.map parseISO).map
      (fun d => if jsIsWeekend d then jsNextMonday d else d) =
    (effectivePreferred j).map some := by
  unfold hasParsablePref at h
  unfold effectivePreferred
  rcases hp : j.preferredStartDate with _ | ds
  · rfl
  · rw [hp] at h
    cases ds with
    | malformed s => simp at h
    | valid da =>
      by_cases hw : isWeekend da <;>
        simp [parseISO, jsIsWeekend, jsNextMonday, nextWeekday, hw]

/-- C4: for every pair of jobs whose preferred start dates, when present,
are parsable (the ingestion surface's guarantee), the comparator used by
`allocateJobs` computes exactly the spec's three-step ordering: urgency
first, then weekend-normalized effective preferred start dates (earlier
first, a date before no date, two absent dates tied), then ascending
lexicographic id. -/
theorem compareJobs_agrees_claim (a b : Job) (ha : hasParsablePref a = true)
    (hb : hasParsablePref b = true) :
    compareJobs a b = claimCompare a b := by
  unfold compareJobs claimCompare
  rw [codeEffectivePref a ha, codeEffectivePref b hb]
  cases ua : a.isUrgent <;> cases ub : b.isUrgent <;>
    cases hxa : effectivePreferred a <;> cases hxb : effectivePreferred b <;>
      simp [jsLt, localeCompare]

/-- Closed witness for `compareJobs_agrees_claim` at two concrete jobs. -/
theorem compareJobs_agrees_claim_witness :
    hasParsablePref (⟨"a1", "A", 8, true, "c", "Fab", none, none, [],
      some (.valid 5)⟩ : Job) = true ∧
    hasParsablePref (⟨"b2", "B", 4, false, "c", "Cut", none, none, [],
      none⟩ : Job) = true ∧
    compareJobs
      ⟨"a1", "A", 8, true, "c", "Fab", none, none, [], some (.valid 5)⟩
      ⟨"b2", "B", 4, false, "c", "Cut", none, none, [], none⟩ =
    claimCompare
      ⟨"a1", "A", 8, true, "c", "Fab", none, none, [], some (.valid 5)⟩
      ⟨"b2", "B", 4, false, "c", "Cut", none, none, [], none⟩ :=
  ⟨by decide, by decide, compareJobs_agrees_claim _ _ (by decide) (by decide)⟩

/-- Closed witness for `generateDateRange_amended` at a concrete window. -/
theorem generateDateRange_amended_witness :
    1 ≤ 3 ∧
    ((∀ x : Nat, DateStr.valid x ∈ generateDateRange 0 (some 4) 3 ↔
      (nextWeekday 4 ≤ x ∧ x < nextWeekday 4 + 3 ∧ isWeekend x = false)) ∧
    (∀ s ∈ generateDateRange 0 (some 4) 3, s.isSatSun = false) ∧
    (generateDateRange 0 (some 4) 3).Pairwise (fun a b => a.dayOf < b.dayOf) ∧
    (generateDateRange 0 (some 4) 3).length ≤ 3) :=
  ⟨by norm_num, generateDateRange_amended 0 4 3 (by norm_num)⟩

/-! ### The schedule map -/

theorem schedGet_mem {sched : Schedule} {k : DateStr} {dd : DayData}
    (h : schedGet sched k = some dd) : (k, dd) ∈ sched := by
  unfold schedGet at h
  cases hf : sched.find? (fun p => p.1 == k) with
  | none => rw [hf] at h; simp at h
  | some q =>
    rw [hf] at h
    simp only [Option.map_some', Option.some.injEq] at h
    have hq := List.find?_some hf
    have hm := List.mem_of_find?_eq_some hf
    rw [beq_iff_eq] at hq
    subst h
    rw [← hq]
    exact hm

theorem mem_schedSet {sched : Schedule} {k : DateStr} {v : DayData} {p}
    (h : p ∈ schedSet sched k v) : p = (k, v) ∨ p ∈ sched := by
  unfold schedSet at h
  split at h
  · rw [List.mem_map] at h
    obtain ⟨q, hq, hEq⟩ := h
    by_cases hk : q.1 == k
    · rw [if_pos hk] at hEq
      exact Or.inl hEq.symm
    · rw [if_neg hk] at hEq
      subst hEq
      exact Or.inr hq
  · rw [List.mem_append] at h
    rcases h with h | h
    · exact Or.inr h
    · simp only [List.mem_singleton] at h
      exact Or.inl h

theorem sumAssign_append (l : List DailyAssignment) (x : DailyAssignment) :
    sumAssign (l ++ [x]) = sumAssign l + x.hoursAssigned := by
  simp [sumAssign]

theorem sumSegs_append (l : List Segment) (x : Segment) :
    sumSegs (l ++ [x]) = sumSegs l + x.hours := by
  simp [sumSegs]

/-! ### Single-day allocation -/

theorem allocOnDay_spec (job : Job) (settings : ScheduleSettings) (sched : Schedule)
    (d : Nat) (r : ℚ) :
    ((allocOnDay job settings sched d r).2.1 = none ∧
      (allocOnDay job settings sched d r).1 = r ∧
      (allocOnDay job settings sched d r).2.2 = sched) ∨
    (∃ a : ℚ, 0 < a ∧ a ≤ r ∧
      (allocOnDay job settings sched d r).2.1 = some ⟨formatDate d, a⟩ ∧
      (allocOnDay job settings sched d r).1 = r - a) := by
  simp only [allocOnDay]
  split
  · rename_i h
    right
    exact ⟨_, h, min_le_left _ _, rfl, rfl⟩
  · left
    exact ⟨rfl, rfl, rfl⟩

theorem grant_le_sub {cap total r : ℚ} (h : 0 < min r (max 0 (cap - total))) :
    min r (max 0 (cap - total)) ≤ cap - total := by
  rcases le_or_lt (cap - total) 0 with hle | hlt
  · rw [max_eq_left hle] at h
    exact absurd (lt_of_lt_of_le h (min_le_right _ _)) (lt_irrefl 0)
  · rw [max_eq_right (le_of_lt hlt)]
    exact min_le_right _ _

theorem allocOnDay_SchedOK {settings : ScheduleSettings} {sched : Schedule}
    (job : Job) {d : Nat} {r : ℚ}
    (hok : SchedOK settings sched) (hd : isWeekend d = false) :
    SchedOK settings (allocOnDay job settings sched d r).2.2 := by
  simp only [allocOnDay]
  split
  · rename_i hpos
    intro p hp
    rcases mem_schedSet hp with hnew | hmem
    · subst hnew
      have htot :
          ((schedGet sched (formatDate d)).getD ⟨formatDate d, [], 0⟩).totalHoursAssigned =
            sumAssign ((schedGet sched (formatDate d)).getD ⟨formatDate d, [], 0⟩).assignments := by
        cases hg : schedGet sched (formatDate d) with
        | none => simp [Option.getD, sumAssign]
        | some dd => exact (hok _ (schedGet_mem hg)).1
      refine ⟨?_, ?_, ?_⟩
      · show _ + _ = sumAssign (_ ++ [_])
        rw [sumAssign_append, htot]
      · show _ + _ ≤ _
        have hg := grant_le_sub hpos
        linarith
      · show (formatDate d).isSatSun = false
        simpa [formatDate, DateStr.isSatSun] using hd
    · exact hok p hmem
  · exact hok

theorem allocLoop_SchedOK (job : Job) (settings : ScheduleSettings) :
    ∀ (fuel c : Nat) (r : ℚ) (segs : List Segment) (sched : Schedule),
      SchedOK settings sched →
      SchedOK settings (allocLoop job settings fuel c r segs sched).sched := by
  intro fuel
  induction fuel with
  | zero => intro c r segs sched h; exact h
  | succ n ih =>
    intro c r segs sched h
    simp only [allocLoop]
    by_cases hr : r ≤ 0
    · rw [if_pos hr]
      exact h
    · rw [if_neg hr]
      have hdw : isWeekend (if isWeekend c = true then nextMonday c else c) = false := by
        by_cases hw : isWeekend c
        · simp [hw, isWeekend_nextMonday]
        · simp [hw]
      generalize hgen : (if isWeekend c = true then nextMonday c else c) = d
      rw [hgen] at hdw
      have hok := allocOnDay_SchedOK (r := r) job h hdw
      by_cases h1 : 0 < (allocOnDay job settings sched d r).1
      · rw [if_pos h1]
        by_cases h2 : n = 0
        · rw [if_pos h2]
          exact hok
        · rw [if_neg h2]
          exact ih _ _ _ _ hok
      · rw [if_neg h1]
        exact hok

theorem allocFold_SchedOK (settings : ScheduleSettings) (p : Nat) :
    ∀ (jobs : List Job) (sched : Schedule),
      SchedOK settings sched →
      SchedOK settings (allocFold settings p sched jobs).1 := by
  intro jobs
  induction jobs with
  | nil => intro sched h; exact h
  | cons j js ih =>
    intro sched h
    simp only [allocFold, processJob]
    exact ih _ (allocLoop_SchedOK j settings _ _ _ _ _ h)

theorem SchedOK_nil (settings : ScheduleSettings) : SchedOK settings [] := by
  intro p hp
  simp at hp

/-- C1: every date present in the schedule map returned by `allocateJobs`
has `totalHoursAssigned` equal to the sum of its assignments' hours, and
`totalHoursAssigned` does not exceed that date's effective capacity
`getCapacityForDate` (exactly — the arithmetic is modelled over `ℚ`, so no
floating-point tolerance is needed). -/
theorem allocateJobs_day_invariant (today : Nat) (jobs : List Job)
    (settings : ScheduleSettings) (ds : DateStr) :
    ∀ p ∈ (allocateJobs today jobs settings ds).allocatedSchedule,
      p.2.totalHoursAssigned = sumAssign p.2.assignments ∧
      p.2.totalHoursAssigned ≤ getCapacityForDate p.1 settings := by
  intro p hp
  have h := allocFold_SchedOK settings (parsePlanningStart today ds)
    (sortByCmp compareJobs jobs) [] (SchedOK_nil settings) p hp
  exact ⟨h.1, h.2.1⟩

/-! ### Sorting is a permutation -/

theorem mem_insertByCmp {cmp : α → α → Int} {x y : α} {l : List α} :
    y ∈ insertByCmp cmp x l ↔ y = x ∨ y ∈ l := by
  induction l with
  | nil => simp [insertByCmp]
  | cons a as ih =>
    simp only [insertByCmp]
    split
    · simp only [List.mem_cons]
      try tauto
    · simp only [List.mem_cons, ih]
      tauto

theorem mem_sortByCmp {cmp : α → α → Int} {l : List α} {x : α} :
    x ∈ sortByCmp cmp l ↔ x ∈ l := by
  induction l with
  | nil => simp [sortByCmp]
  | cons a as ih =>
    simp only [sortByCmp, mem_insertByCmp, ih, List.mem_cons]

/-! ### Hour accounting of the per-job loop -/

theorem allocLoop_hours (job : Job) (settings : ScheduleSettings) :
    ∀ (fuel c : Nat) (r : ℚ) (segs : List Segment) (sched : Schedule),
      (sumSegs (allocLoop job settings fuel c r segs sched).segments +
        (allocLoop job settings fuel c r segs sched).remainingHours = sumSegs segs + r) ∧
      (0 ≤ r → 0 ≤ (allocLoop job settings fuel c r segs sched).remainingHours) ∧
      (0 < fuel → 0 < (allocLoop job settings fuel c r segs sched).remainingHours →
        (allocLoop job settings fuel c r segs sched).warned = true) := by
  intro fuel
  induction fuel with
  | zero =>
    intro c r segs sched
    exact ⟨rfl, fun h => h, fun hf _ => absurd hf (lt_irrefl 0)⟩
  | succ n ih =>
    intro c r segs sched
    simp only [allocLoop]
    by_cases hr : r ≤ 0
    · rw [if_pos hr]
      exact ⟨rfl, fun h => h,
        fun _ hrem => absurd (lt_of_lt_of_le hrem hr) (lt_irrefl 0)⟩
    · rw [if_neg hr]
      have hr' : 0 < r := not_le.mp hr
      generalize hgen : (if isWeekend c = true then nextMonday c else c) = d
      rcases allocOnDay_spec job settings sched d r with
        ⟨hseg, hrem, hsch⟩ | ⟨a, hapos, har, hseg, hrem⟩
      · rw [hseg, hrem]
        simp only [Option.toList_none, List.append_nil]
        rw [if_pos hr']
        by_cases h2 : n = 0
        · rw [if_pos h2]
          exact ⟨rfl, fun h => h, fun _ _ => rfl⟩
        · rw [if_neg h2]
          obtain ⟨ih1, ih2, ih3⟩ := ih (d + 1) r segs (allocOnDay job settings sched d r).2.2
          exact ⟨ih1, ih2, fun _ h => ih3 (Nat.pos_of_ne_zero h2) h⟩
      · rw [hseg, hrem]
        simp only [Option.toList_some]
        have hsum : sumSegs (segs ++ [⟨formatDate d, a⟩]) = sumSegs segs + a := by
          rw [sumSegs_append]
        have hra : 0 ≤ r - a := sub_nonneg.mpr har
        by_cases h1 : 0 < r - a
        · rw [if_pos h1]
          by_cases h2 : n = 0
          · rw [if_pos h2]
            refine ⟨?_, fun _ => hra, fun _ _ => rfl⟩
            rw [hsum]
            ring
          · rw [if_neg h2]
            obtain ⟨ih1, ih2, ih3⟩ := ih (d + 1) (r - a) (segs ++ [⟨formatDate d, a⟩])
              (allocOnDay job settings sched d r).2.2
            refine ⟨?_, fun _ => ih2 hra, fun _ h => ih3 (Nat.pos_of_ne_zero h2) h⟩
            rw [ih1, hsum]
            ring
        · rw [if_neg h1]
          refine ⟨?_, fun _ => hra, fun _ h => absurd h h1⟩
          rw [hsum]
          ring

theorem allocLoop_iterations (job : Job) (settings : ScheduleSettings) :
    ∀ (fuel c : Nat) (r : ℚ) (segs : List Segment) (sched : Schedule),
      (allocLoop job settings fuel c r segs sched).iterations ≤ fuel := by
  intro fuel
  induction fuel with
  | zero => intro c r segs sched; exact le_refl 0
  | succ n ih =>
    intro c r segs sched
    simp only [allocLoop]
    by_cases hr : r ≤ 0
    · rw [if_pos hr]
      exact Nat.zero_le _
    · rw [if_neg hr]
      generalize hgen : (if isWeekend c = true then nextMonday c else c) = d
      by_cases h1 : 0 < (allocOnDay job settings sched d r).1
      · rw [if_pos h1]
        by_cases h2 : n = 0
        · rw [if_pos h2]
          exact Nat.succ_le_succ (Nat.zero_le n)
        · rw [if_neg h2]
          exact Nat.succ_le_succ (ih _ _ _ _)
      · rw [if_neg h1]
        exact Nat.succ_le_succ (Nat.zero_le n)

theorem allocFold_hours (settings : ScheduleSettings) (p : Nat) :
    ∀ (jobs : List Job) (sched : Schedule),
      (∀ j ∈ jobs, 0 ≤ j.requiredHours) →
      ∀ j' ∈ (allocFold settings p sched jobs).2.1,
        sumSegs j'.scheduledSegments ≤ j'.requiredHours ∧
        (sumSegs j'.scheduledSegments = j'.requiredHours ∨
          j'.id ∈ (allocFold settings p sched jobs).2.2) := by
  intro jobs
  induction jobs with
  | nil =>
    intro sched h j' hj'
    simp [allocFold] at hj'
  | cons j js ih =>
    intro sched h j' hj'
    have hj := h j (List.mem_cons_self j js)
    obtain ⟨h1, h2, h3⟩ := allocLoop_hours j settings maxSchedulingDays
      (effectiveStart p j) j.requiredHours [] sched
    rcases List.mem_cons.mp hj' with rfl | hmem
    · constructor
      · have hrem : 0 ≤ (allocLoop j settings maxSchedulingDays
            (effectiveStart p j) j.requiredHours [] sched).remainingHours := h2 hj
        show sumSegs (allocLoop j settings maxSchedulingDays
          (effectiveStart p j) j.requiredHours [] sched).segments ≤ j.requiredHours
        have h1' := h1
        rw [show sumSegs ([] : List Segment) = 0 from rfl, zero_add] at h1'
        linarith
      · by_cases hz : (allocLoop j settings maxSchedulingDays
            (effectiveStart p j) j.requiredHours [] sched).remainingHours = 0
        · left
          show sumSegs (allocLoop j settings maxSchedulingDays
            (effectiveStart p j) j.requiredHours [] sched).segments = j.requiredHours
          have h1' := h1
          rw [show sumSegs ([] : List Segment) = 0 from rfl, zero_add] at h1'
          linarith
        · right
          have hpos : 0 < (allocLoop j settings maxSchedulingDays
              (effectiveStart p j) j.requiredHours [] sched).remainingHours :=
            lt_of_le_of_ne (h2 hj) (Ne.symm hz)
          have hw := h3 (by norm_num [maxSchedulingDays]) hpos
          show _ ∈ (if (allocLoop j settings maxSchedulingDays
              (effectiveStart p j) j.requiredHours [] sched).warned then [j.id] else []) ++ _
          rw [hw]
          exact List.mem_append_left _ (List.mem_singleton.mpr rfl)
    · have := ih _ (fun x hx => h x (List.mem_cons_of_mem j hx)) j' hmem
      exact ⟨this.1, this.2.imp id (fun hm => List.mem_append_right _ hm)⟩

/-- C5: for every job returned by `allocateJobs` (with the nonnegative
required hours the job-ingestion surface guarantees), the sum of its
scheduled segments' hours is at most its `requiredHours`, with equality
unless the job's iteration bound was exhausted (recorded as a warning for
that job's id). -/
theorem allocateJobs_job_hours (today : Nat) (jobs : List Job)
    (settings : ScheduleSettings) (ds : DateStr)
    (hreq : ∀ j ∈ jobs, 0 ≤ j.requiredHours) :
    ∀ j' ∈ (allocateJobs today jobs settings ds).updatedJobs,
      sumSegs j'.scheduledSegments ≤ j'.requiredHours ∧
      (sumSegs j'.scheduledSegments = j'.requiredHours ∨
        j'.id ∈ (allocateJobs today jobs settings ds).warnings) := by
  intro j' hj'
  exact allocFold_hours settings (parsePlanningStart today ds)
    (sortByCmp compareJobs jobs) []
    (fun j hj => hreq j (mem_sortByCmp.mp hj)) j' hj'

/-! ### Termination and the zero-capacity scenario -/

theorem getCapacityForDate_zeroSettings (ds : DateStr) :
    getCapacityForDate ds zeroSettings = 0 := by
  unfold getCapacityForDate zeroSettings
  cases ds with
  | malformed s => simp
  | valid d =>
    simp only [List.find?_nil]
    by_cases hw : isWeekend d
    · simp [hw]
    · have h7 : d % 7 = 0 ∨ d % 7 = 1 ∨ d % 7 = 2 ∨ d % 7 = 3 ∨ d % 7 = 4 ∨
          d % 7 = 5 ∨ d % 7 = 6 := by omega
      rcases h7 with h | h | h | h | h | h | h <;> simp [hw, h]

theorem allocOnDay_zeroSettings (job : Job) (d : Nat) (r : ℚ) :
    allocOnDay job zeroSettings [] d r = (r, none, []) := by
  simp only [allocOnDay, schedGet, List.find?_nil, Option.map_none', Option.getD,
    getCapacityForDate_zeroSettings]
  norm_num

theorem allocLoop_zeroSettings (job : Job) :
    ∀ (fuel c : Nat) (r : ℚ) (segs : List Segment), 0 < r →
      allocLoop job zeroSettings fuel c r segs [] =
        ⟨r, segs, [], decide (fuel ≠ 0), fuel⟩ := by
  intro fuel
  induction fuel with
  | zero => intro c r segs hr; rfl
  | succ n ih =>
    intro c r segs hr
    simp only [allocLoop]
    rw [if_neg (not_le.mpr hr)]
    generalize (if isWeekend c = true then nextMonday c else c) = d
    rw [allocOnDay_zeroSettings]
    simp only [Option.toList_none, List.append_nil]
    rw [if_pos hr]
    by_cases h2 : n = 0
    · subst h2
      simp
    · rw [if_neg h2]
      rw [ih (d + 1) r segs hr]
      simp [h2]

/-- C7: the allocator always terminates — each job's allocation loop runs at
most `maxSchedulingDays = 730` iterations; and with zero capacity everywhere
(`zeroSettings`), every job requiring positive hours ends at the bound with
empty `scheduledSegments` and a recorded (non-fatal) warning for its id. -/
theorem allocateJobs_terminates (today : Nat) (jobs : List Job) (ds : DateStr)
    (hreq : ∀ j ∈ jobs, 0 < j.requiredHours) :
    (∀ (job : Job) (settings : ScheduleSettings) (c : Nat) (r : ℚ)
        (segs : List Segment) (sched : Schedule),
      (allocLoop job settings maxSchedulingDays c r segs sched).iterations ≤
        maxSchedulingDays) ∧
    (∀ j' ∈ (allocateJobs today jobs zeroSettings ds).updatedJobs,
      j'.scheduledSegments = [] ∧
      j'.id ∈ (allocateJobs today jobs zeroSettings ds).warnings) := by
  constructor
  · intro job settings c r segs sched
    exact allocLoop_iterations job settings maxSchedulingDays c r segs sched
  · have key : ∀ (js : List Job), (∀ j ∈ js, 0 < j.requiredHours) →
        ∀ j' ∈ (allocFold zeroSettings (parsePlanningStart today ds) [] js).2.1,
          j'.scheduledSegments = [] ∧
          j'.id ∈ (allocFold zeroSettings (parsePlanningStart today ds) [] js).2.2 := by
      intro js
      induction js with
      | nil =>
        intro _ j' hj'
        simp [allocFold] at hj'
      | cons j rest ih =>
        intro hall j' hj'
        have hj := hall j (List.mem_cons_self j rest)
        have hloop := allocLoop_zeroSettings j maxSchedulingDays
          (effectiveStart (parsePlanningStart today ds) j) j.requiredHours [] hj
        have hsched : (processJob zeroSettings (parsePlanningStart today ds) [] j).1 = [] := by
          simp only [processJob, hloop]
        have hjob : (processJob zeroSettings (parsePlanningStart today ds) [] j).2.1 =
            { j with scheduledSegments := [] } := by
          simp only [processJob, hloop]
        have hwarn : (processJob zeroSettings (parsePlanningStart today ds) [] j).2.2 = true := by
          simp only [processJob, hloop]
          norm_num [maxSchedulingDays]
        rcases List.mem_cons.mp hj' with heq | hmem
        · refine ⟨?_, ?_⟩
          · rw [heq, hjob]
          · rw [heq, hjob]
            show j.id ∈ (if (processJob zeroSettings (parsePlanningStart today ds) [] j).2.2
              then [j.id] else []) ++ _
            rw [hwarn]
            exact List.mem_append_left _ (List.mem_singleton.mpr rfl)
        · have hmem' : j' ∈ (allocFold zeroSettings (parsePlanningStart today ds) [] rest).2.1 := by
            rw [← hsched]
            exact hmem
          have := ih (fun x hx => hall x (List.mem_cons_of_mem j hx)) j' hmem'
          refine ⟨this.1, ?_⟩
          show j'.id ∈ (if _ then [j.id] else []) ++
            (allocFold zeroSettings (parsePlanningStart today ds)
              (processJob zeroSettings (parsePlanningStart today ds) [] j).1 rest).2.2
          rw [hsched]
          exact List.mem_append_right _ this.2
    intro j' hj'
    exact key (sortByCmp compareJobs jobs)
      (fun j hj => hreq j (mem_sortByCmp.mp hj)) j' hj'

/-! ### Shape of the segments a job receives -/

theorem allocLoop_segs (job : Job) (settings : ScheduleSettings) :
    ∀ (fuel c : Nat) (r : ℚ) (segs : List Segment) (sched : Schedule),
      ∃ new : List Segment,
        (allocLoop job settings fuel c r segs sched).segments = segs ++ new ∧
        (∀ s ∈ new, 0 < s.hours ∧ s.date = formatDate s.date.dayOf ∧
          isWeekend s.date.dayOf = false ∧ nextWeekday c ≤ s.date.dayOf) ∧
        new.Pairwise (fun s t => s.date.dayOf < t.date.dayOf) := by
  intro fuel
  induction fuel with
  | zero =>
    intro c r segs sched
    exact ⟨[], by simp [allocLoop], by simp, List.Pairwise.nil⟩
  | succ n ih =>
    intro c r segs sched
    simp only [allocLoop]
    by_cases hr : r ≤ 0
    · rw [if_pos hr]
      exact ⟨[], by simp, by simp, List.Pairwise.nil⟩
    · rw [if_neg hr]
      generalize hgen : (if isWeekend c = true then nextMonday c else c) = d
      have hd : nextWeekday c = d := by rw [nextWeekday]; exact hgen
      have hdw : isWeekend d = false := by rw [← hd]; exact isWeekend_nextWeekday c
      rcases allocOnDay_spec job settings sched d r with
        ⟨hseg, hrem, hsch⟩ | ⟨a, hapos, har, hseg, hrem⟩
      · rw [hseg, hrem]
        simp only [Option.toList_none, List.append_nil]
        rw [if_pos (not_le.mp hr)]
        by_cases h2 : n = 0
        · rw [if_pos h2]
          exact ⟨[], by simp, by simp, List.Pairwise.nil⟩
        · rw [if_neg h2]
          obtain ⟨new, hnew1, hnew2, hnew3⟩ := ih (d + 1) r segs
            (allocOnDay job settings sched d r).2.2
          refine ⟨new, hnew1, ?_, hnew3⟩
          intro s hs
          obtain ⟨hh, hv, hw, hge⟩ := hnew2 s hs
          refine ⟨hh, hv, hw, ?_⟩
          calc nextWeekday c = d := hd
            _ ≤ d + 1 := Nat.le_succ d
            _ ≤ nextWeekday (d + 1) := le_nextWeekday _
            _ ≤ s.date.dayOf := hge
      · rw [hseg, hrem]
        simp only [Option.toList_some]
        have hprops : 0 < Segment.hours ⟨formatDate d, a⟩ ∧
            Segment.date ⟨formatDate d, a⟩ =
              formatDate (Segment.date ⟨formatDate d, a⟩).dayOf ∧
            isWeekend (Segment.date ⟨formatDate d, a⟩).dayOf = false ∧
            nextWeekday c ≤ (Segment.date ⟨formatDate d, a⟩).dayOf :=
          ⟨hapos, rfl, hdw, le_of_eq hd⟩
        by_cases h1 : 0 < r - a
        · rw [if_pos h1]
          by_cases h2 : n = 0
          · rw [if_pos h2]
            refine ⟨[⟨formatDate d, a⟩], rfl, ?_, by simp⟩
            intro s hs
            rw [List.mem_singleton] at hs
            subst hs
            exact hprops
          · rw [if_neg h2]
            obtain ⟨new, hnew1, hnew2, hnew3⟩ := ih (d + 1) (r - a)
              (segs ++ [⟨formatDate d, a⟩]) (allocOnDay job settings sched d r).2.2
            refine ⟨⟨formatDate d, a⟩ :: new, ?_, ?_, ?_⟩
            · rw [hnew1, List.append_assoc, List.singleton_append]
            · intro s hs
              rcases List.mem_cons.mp hs with rfl | hs'
              · exact hprops
              · obtain ⟨hh, hv, hw, hge⟩ := hnew2 s hs'
                refine ⟨hh, hv, hw, ?_⟩
                calc nextWeekday c = d := hd
                  _ ≤ d + 1 := Nat.le_succ d
                  _ ≤ nextWeekday (d + 1) := le_nextWeekday _
                  _ ≤ s.date.dayOf := hge
            · rw [List.pairwise_cons]
              refine ⟨?_, hnew3⟩
              intro t ht
              obtain ⟨-, -, -, hge⟩ := hnew2 t ht
              have hge' : d + 1 ≤ t.date.dayOf := le_trans (le_nextWeekday _) hge
              show d < t.date.dayOf
              omega
        · rw [if_neg h1]
          refine ⟨[⟨formatDate d, a⟩], rfl, ?_, by simp⟩
          intro s hs
          rw [List.mem_singleton] at hs
          subst hs
          exact hprops

theorem isWeekend_effectiveStart (p : Nat) (j : Job) :
    isWeekend (effectiveStart p j) = false := by
  unfold effectiveStart
  generalize (match j.preferredStartDate with
    | none => p
    | some prefStr => match parseISO prefStr with
      | none => p
      | some preferred => if p ≤ preferred then preferred else p) = x
  by_cases hw : isWeekend x
  · simp [hw, isWeekend_nextMonday]
  · simp [hw]

theorem nextWeekday_effectiveStart (p : Nat) (j : Job) :
    nextWeekday (effectiveStart p j) = effectiveStart p j :=
  nextWeekday_eq_of_not_weekend (isWeekend_effectiveStart p j)

theorem effectiveStart_update_segs (p : Nat) (j : Job) (s : List Segment) :
    effectiveStart p { j with scheduledSegments := s } = effectiveStart p j := by
  cases j
  rfl

theorem allocFold_segs (settings : ScheduleSettings) (p : Nat) :
    ∀ (jobs : List Job) (sched : Schedule),
      ∀ j' ∈ (allocFold settings p sched jobs).2.1,
        (∀ s ∈ j'.scheduledSegments, 0 < s.hours ∧ s.date = formatDate s.date.dayOf ∧
          isWeekend s.date.dayOf = false ∧ effectiveStart p j' ≤ s.date.dayOf) ∧
        j'.scheduledSegments.Pairwise (fun s t => s.date.dayOf < t.date.dayOf) := by
  intro jobs
  induction jobs with
  | nil =>
    intro sched j' hj'
    simp [allocFold] at hj'
  | cons j js ih =>
    intro sched j' hj'
    rcases List.mem_cons.mp hj' with heq | hmem
    · obtain ⟨new, hnew1, hnew2, hnew3⟩ := allocLoop_segs j settings maxSchedulingDays
        (effectiveStart p j) j.requiredHours [] sched
      rw [List.nil_append] at hnew1
      have hsegs : j'.scheduledSegments = new := by
        rw [heq]
        show (allocLoop j settings maxSchedulingDays
          (effectiveStart p j) j.requiredHours [] sched).segments = new
        exact hnew1
      have heff : effectiveStart p j' = effectiveStart p j := by
        rw [heq]
        exact effectiveStart_update_segs p j _
      rw [hsegs, heff]
      refine ⟨?_, hnew3⟩
      intro s hs
      obtain ⟨hh, hv, hw, hge⟩ := hnew2 s hs
      refine ⟨hh, hv, hw, ?_⟩
      rw [← nextWeekday_effectiveStart p j]
      exact hge
    · exact ih _ j' hmem

/-- C6: no Saturday or Sunday date ever appears as a key of the schedule map
returned by `allocateJobs`, and no scheduled segment of any returned job
carries a weekend date. -/
theorem allocateJobs_no_weekend (today : Nat) (jobs : List Job)
    (settings : ScheduleSettings) (ds : DateStr) :
    (∀ p ∈ (allocateJobs today jobs settings ds).allocatedSchedule,
      p.1.isSatSun = false) ∧
    (∀ j' ∈ (allocateJobs today jobs settings ds).updatedJobs,
      ∀ s ∈ j'.scheduledSegments, s.date.isSatSun = false) := by
  constructor
  · intro p hp
    exact (allocFold_SchedOK settings (parsePlanningStart today ds)
      (sortByCmp compareJobs jobs) [] (SchedOK_nil settings) p hp).2.2
  · intro j' hj' s hs
    obtain ⟨hprops, -⟩ := allocFold_segs settings (parsePlanningStart today ds)
      (sortByCmp compareJobs jobs) [] j' hj'
    obtain ⟨-, hv, hw, -⟩ := hprops s hs
    rw [hv]
    show (formatDate s.date.dayOf).isSatSun = false
    simpa [formatDate, DateStr.isSatSun] using hw

/-- C10: every returned job's segments are in strictly increasing date order
(hence pairwise-distinct dates), every segment's hours are positive, and no
segment's date precedes the job's effective start date (the later of the
planning start date and the job's valid preferred start date, normalized to
the next weekday — `effectiveStart`). -/
theorem allocateJobs_segment_order (today : Nat) (jobs : List Job)
    (settings : ScheduleSettings) (ds : DateStr) :
    ∀ j' ∈ (allocateJobs today jobs settings ds).updatedJobs,
      j'.scheduledSegments.Pairwise
        (fun s t => s.date.dayOf < t.date.dayOf ∧ s.date ≠ t.date) ∧
      ∀ s ∈ j'.scheduledSegments, 0 < s.hours ∧
        effectiveStart (parsePlanningStart today ds) j' ≤ s.date.dayOf := by
  intro j' hj'
  obtain ⟨hprops, hpair⟩ := allocFold_segs settings (parsePlanningStart today ds)
    (sortByCmp compareJobs jobs) [] j' hj'
  constructor
  · refine List.Pairwise.imp_of_mem ?_ hpair
    intro s t hs ht hlt
    refine ⟨hlt, ?_⟩
    intro hcontra
    rw [hcontra] at hlt
    exact absurd hlt (lt_irrefl _)
  · intro s hs
    obtain ⟨hh, -, -, hge⟩ := hprops s hs
    exact ⟨hh, hge⟩

/-! ### The comparator is total; sorting an already-sorted list is a no-op -/

theorem localeCompare_flip {a b : String} (h : ¬ localeCompare a b ≤ 0) :
    localeCompare b a ≤ 0 := by
  unfold localeCompare at h ⊢
  by_cases h1 : a < b
  · rw [if_pos h1] at h
    norm_num at h
  · rw [if_neg h1] at h
    by_cases h2 : b < a
    · rw [if_pos h2]
      norm_num
    · rw [if_neg h2] at h
      norm_num at h

theorem jsLt_asymm {x y : JSDate} (h : jsLt x y = true) : jsLt y x = false := by
  cases x <;> cases y <;> simp [jsLt] at h ⊢
  omega

theorem optDate_flip (dA dB : Option JSDate) (ia ib : String)
    (h : ¬ (match dA, dB with
        | some da, some db => if jsLt da db = true then (-1 : Int)
            else if jsLt db da = true then 1 else localeCompare ia ib
        | some _, none => -1
        | none, some _ => 1
        | none, none => localeCompare ia ib) ≤ 0) :
    (match dB, dA with
        | some da, some db => if jsLt da db = true then (-1 : Int)
            else if jsLt db da = true then 1 else localeCompare ib ia
        | some _, none => -1
        | none, some _ => 1
        | none, none => localeCompare ib ia) ≤ 0 := by
  cases dA with
  | none =>
    cases dB with
    | none => exact localeCompare_flip h
    | some y =>
      show (-1 : Int) ≤ 0
      norm_num
  | some x =>
    cases dB with
    | none => exact absurd (by norm_num : (-1 : Int) ≤ 0) h
    | some y =>
      have h' : ¬ (if jsLt x y = true then (-1 : Int)
          else if jsLt y x = true then 1 else localeCompare ia ib) ≤ 0 := h
      show (if jsLt y x = true then (-1 : Int)
          else if jsLt x y = true then 1 else localeCompare ib ia) ≤ 0
      by_cases hxy : jsLt x y = true
      · rw [if_pos hxy] at h'
        norm_num at h'
      · rw [if_neg hxy] at h'
        by_cases hyx : jsLt y x = true
        · rw [if_pos hyx]
          norm_num
        · rw [if_neg hyx] at h'
          rw [if_neg hyx, if_neg hxy]
          exact localeCompare_flip h'

theorem compareJobs_flip (a b : Job) (h : ¬ compareJobs a b ≤ 0) :
    compareJobs b a ≤ 0 := by
  unfold compareJobs at h ⊢
  cases ha : a.isUrgent <;> cases hb : b.isUrgent <;>
    simp only [ha, hb, Bool.not_true, Bool.not_false, Bool.true_and, Bool.false_and,
      Bool.and_true, Bool.and_false, Bool.false_eq_true, Bool.true_eq_false,
      if_true, if_false, ite_true, ite_false] at h ⊢
  case false.true => norm_num
  case true.false => exact absurd (by norm_num : (-1 : Int) ≤ 0) h
  case false.false => exact optDate_flip _ _ a.id b.id h
  case true.true => exact optDate_flip _ _ a.id b.id h

theorem chain'_insertByCmp {α : Type _} (cmp : α → α → Int)
    (hflip : ∀ u v, ¬ cmp u v ≤ 0 → cmp v u ≤ 0) (x : α) :
    ∀ {l : List α}, l.Chain' (fun u v => cmp u v ≤ 0) →
      (insertByCmp cmp x l).Chain' (fun u v => cmp u v ≤ 0) := by
  intro l
  induction l with
  | nil =>
    intro _
    simp [insertByCmp]
  | cons y ys ih =>
    intro hch
    simp only [insertByCmp]
    by_cases hxy : cmp x y ≤ 0
    · rw [if_pos hxy]
      exact List.chain'_cons.mpr ⟨hxy, hch⟩
    · rw [if_neg hxy]
      have hyx := hflip x y hxy
      cases ys with
      | nil =>
        simp only [insertByCmp]
        exact List.chain'_cons.mpr ⟨hyx, List.chain'_singleton x⟩
      | cons z zs =>
        rw [List.chain'_cons] at hch
        obtain ⟨hyz, hch'⟩ := hch
        have hins := ih hch'
        simp only [insertByCmp] at hins ⊢
        by_cases hxz : cmp x z ≤ 0
        · rw [if_pos hxz] at hins ⊢
          exact List.chain'_cons.mpr ⟨hyx, hins⟩
        · rw [if_neg hxz] at hins ⊢
          exact List.chain'_cons.mpr ⟨hyz, hins⟩

theorem chain'_sortByCmp {α : Type _} (cmp : α → α → Int)
    (hflip : ∀ u v, ¬ cmp u v ≤ 0 → cmp v u ≤ 0) :
    ∀ l : List α, (sortByCmp cmp l).Chain' (fun u v => cmp u v ≤ 0) := by
  intro l
  induction l with
  | nil => simp [sortByCmp]
  | cons x xs ih => exact chain'_insertByCmp cmp hflip x ih

theorem sortByCmp_of_chain' {α : Type _} (cmp : α → α → Int) :
    ∀ {l : List α}, l.Chain' (fun u v => cmp u v ≤ 0) → sortByCmp cmp l = l := by
  intro l
  induction l with
  | nil => intro _; rfl
  | cons x xs ih =>
    intro hch
    simp only [sortByCmp]
    cases xs with
    | nil => rfl
    | cons y ys =>
      rw [List.chain'_cons] at hch
      obtain ⟨hxy, hch'⟩ := hch
      rw [ih hch']
      simp only [insertByCmp]
      rw [if_pos hxy]

/-! ### The allocation pass only reads a job's non-segment fields -/

theorem eraseSegs_update (j : Job) (s : List Segment) :
    eraseSegs { j with scheduledSegments := s } = eraseSegs j := by
  cases j
  rfl

theorem update_eraseSegs (j : Job) :
    { eraseSegs j with scheduledSegments := j.scheduledSegments } = j := by
  cases j
  rfl

theorem update_eraseSegs' (j : Job) (s : List Segment) :
    { eraseSegs j with scheduledSegments := s } = { j with scheduledSegments := s } := by
  cases j
  rfl

theorem eq_update_of_eraseSegs_eq {a b : Job} (h : eraseSegs a = eraseSegs b) :
    a = { b with scheduledSegments := a.scheduledSegments } := by
  calc a = { eraseSegs a with scheduledSegments := a.scheduledSegments } :=
        (update_eraseSegs a).symm
    _ = { eraseSegs b with scheduledSegments := a.scheduledSegments } := by rw [h]
    _ = { b with scheduledSegments := a.scheduledSegments } := update_eraseSegs' b _

theorem compareJobs_eraseSegs (a b : Job) :
    compareJobs (eraseSegs a) (eraseSegs b) = compareJobs a b := by
  cases a
  cases b
  rfl

theorem job_id_update_segs (j : Job) (s : List Segment) :
    ({ j with scheduledSegments := s } : Job).id = j.id := by
  cases j
  rfl

theorem allocOnDay_update_segs (j : Job) (s : List Segment)
    (settings : ScheduleSettings) (sched : Schedule) (d : Nat) (r : ℚ) :
    allocOnDay { j with scheduledSegments := s } settings sched d r =
      allocOnDay j settings sched d r := by
  cases j
  rfl

theorem allocLoop_update_segs (j : Job) (s : List Segment) (settings : ScheduleSettings) :
    ∀ (fuel c : Nat) (r : ℚ) (segs : List Segment) (sched : Schedule),
      allocLoop { j with scheduledSegments := s } settings fuel c r segs sched =
        allocLoop j settings fuel c r segs sched := by
  intro fuel
  induction fuel with
  | zero => intro c r segs sched; rfl
  | succ n ih =>
    intro c r segs sched
    simp only [allocLoop, allocOnDay_update_segs, ih]

theorem processJob_update_segs (settings : ScheduleSettings) (p : Nat)
    (sched : Schedule) (j : Job) (s : List Segment) :
    processJob settings p sched { j with scheduledSegments := s } =
      processJob settings p sched j := by
  simp only [processJob, allocLoop_update_segs, effectiveStart_update_segs]

theorem allocFold_congr (settings : ScheduleSettings) (p : Nat) :
    ∀ {l₁ l₂ : List Job},
      List.Forall₂ (fun u v => eraseSegs u = eraseSegs v) l₁ l₂ →
      ∀ sched, allocFold settings p sched l₁ = allocFold settings p sched l₂ := by
  intro l₁ l₂ hf
  induction hf with
  | nil => intro sched; rfl
  | @cons a b as bs hab htail ih =>
    intro sched
    simp only [allocFold]
    rw [eq_update_of_eraseSegs_eq hab, processJob_update_segs, job_id_update_segs, ih]

theorem allocFold_eraseSegs (settings : ScheduleSettings) (p : Nat) :
    ∀ (jobs : List Job) (sched : Schedule),
      List.Forall₂ (fun u v => eraseSegs u = eraseSegs v)
        (allocFold settings p sched jobs).2.1 jobs := by
  intro jobs
  induction jobs with
  | nil => intro sched; exact List.Forall₂.nil
  | cons j js ih =>
    intro sched
    refine List.Forall₂.cons ?_ (ih _)
    exact eraseSegs_update j _

theorem chain'_of_forall₂_eraseSegs :
    ∀ {l₁ l₂ : List Job},
      List.Forall₂ (fun u v => eraseSegs u = eraseSegs v) l₁ l₂ →
      l₂.Chain' (fun u v => compareJobs u v ≤ 0) →
      l₁.Chain' (fun u v => compareJobs u v ≤ 0) := by
  intro l₁ l₂ hf
  induction hf with
  | nil => intro _; exact List.chain'_nil
  | @cons a b as bs hab htail ih =>
    intro hch
    rw [List.chain'_cons'] at hch ⊢
    obtain ⟨hhead, htl⟩ := hch
    refine ⟨?_, ih htl⟩
    intro y hy
    cases htail with
    | nil => simp at hy
    | @cons a2 b2 as2 bs2 hyz htail2 =>
      simp only [List.head?_cons, Option.mem_def, Option.some.injEq] at hy
      rw [← hy]
      have hb2 := hhead b2 (by simp)
      have heq : compareJobs a a2 = compareJobs b b2 := by
        rw [← compareJobs_eraseSegs a a2, hab, hyz, compareJobs_eraseSegs]
      rw [heq]
      exact hb2

/-- C8: running `allocateJobs` a second time on the `updatedJobs` of a first
run, with the same settings and (parsable) planning start date, returns the
same schedule map and the same job list: reallocation is idempotent. -/
theorem allocateJobs_idempotent (today : Nat) (jobs : List Job)
    (settings : ScheduleSettings) (ds : DateStr)
    (_hds : (parseISO ds).isSome = true) :
    (allocateJobs today (allocateJobs today jobs settings ds).updatedJobs
        settings ds).allocatedSchedule =
      (allocateJobs today jobs settings ds).allocatedSchedule ∧
    (allocateJobs today (allocateJobs today jobs settings ds).updatedJobs
        settings ds).updatedJobs =
      (allocateJobs today jobs settings ds).updatedJobs := by
  have hflip : ∀ u v : Job, ¬ compareJobs u v ≤ 0 → compareJobs v u ≤ 0 :=
    fun u v h => compareJobs_flip u v h
  have hchainL : (sortByCmp compareJobs jobs).Chain' (fun u v => compareJobs u v ≤ 0) :=
    chain'_sortByCmp compareJobs hflip jobs
  have hF : List.Forall₂ (fun u v => eraseSegs u = eraseSegs v)
      (allocFold settings (parsePlanningStart today ds) []
        (sortByCmp compareJobs jobs)).2.1 (sortByCmp compareJobs jobs) :=
    allocFold_eraseSegs settings (parsePlanningStart today ds)
      (sortByCmp compareJobs jobs) []
  have hchainL' := chain'_of_forall₂_eraseSegs hF hchainL
  have hsortL' : sortByCmp compareJobs
      (allocFold settings (parsePlanningStart today ds) []
        (sortByCmp compareJobs jobs)).2.1 =
      (allocFold settings (parsePlanningStart today ds) []
        (sortByCmp compareJobs jobs)).2.1 :=
    sortByCmp_of_chain' compareJobs hchainL'
  have hfold : allocFold settings (parsePlanningStart today ds) []
      (allocFold settings (parsePlanningStart today ds) []
        (sortByCmp compareJobs jobs)).2.1 =
      allocFold settings (parsePlanningStart today ds) []
        (sortByCmp compareJobs jobs) :=
    allocFold_congr settings (parsePlanningStart today ds) hF []
  constructor
  · show (allocFold settings (parsePlanningStart today ds) []
      (sortByCmp compareJobs
        (allocFold settings (parsePlanningStart today ds) []
          (sortByCmp compareJobs jobs)).2.1)).1 =
      (allocFold settings (parsePlanningStart today ds) []
        (sortByCmp compareJobs jobs)).1
    rw [hsortL', hfold]
  · show (allocFold settings (parsePlanningStart today ds) []
      (sortByCmp compareJobs
        (allocFold settings (parsePlanningStart today ds) []
          (sortByCmp compareJobs jobs)).2.1)).2.1 =
      (allocFold settings (parsePlanningStart today ds) []
        (sortByCmp compareJobs jobs)).2.1
    rw [hsortL', hfold]

/-! ### Closed witnesses at concrete inputs

`Rat.add`/`Rat.sub` are `@[irreducible]` in the library, which blocks
`decide`-evaluation of the allocator; they are made semireducible locally in
this section only so that witnesses can be checked by `decide`. -/

section Witnesses

attribute [local semireducible] Rat.add Rat.sub

set_option maxRecDepth 40000

/-- Closed witness for `allocateJobs_day_invariant`: one 8-hour job on a
Monday with 8-hour capacity. -/
theorem allocateJobs_day_invariant_witness :
    ((DateStr.valid 0, (⟨DateStr.valid 0,
        [⟨DateStr.valid 0, "a", "A", 8, "c", false, "Fab", none, none⟩], 8⟩ : DayData)) ∈
      (allocateJobs 0
        [⟨"a", "A", 8, false, "c", "Fab", none, none, [], some (DateStr.valid 0)⟩]
        ⟨⟨8, 8, 8, 8, 8⟩, []⟩ (DateStr.valid 0)).allocatedSchedule) ∧
    ((⟨DateStr.valid 0,
        [⟨DateStr.valid 0, "a", "A", 8, "c", false, "Fab", none, none⟩], 8⟩ :
          DayData).totalHoursAssigned =
        sumAssign (⟨DateStr.valid 0,
          [⟨DateStr.valid 0, "a", "A", 8, "c", false, "Fab", none, none⟩], 8⟩ :
            DayData).assignments ∧
      (⟨DateStr.valid 0,
        [⟨DateStr.valid 0, "a", "A", 8, "c", false, "Fab", none, none⟩], 8⟩ :
          DayData).totalHoursAssigned ≤
        getCapacityForDate (DateStr.valid 0) ⟨⟨8, 8, 8, 8, 8⟩, []⟩) :=
  ⟨by decide,
    allocateJobs_day_invariant 0
      [⟨"a", "A", 8, false, "c", "Fab", none, none, [], some (DateStr.valid 0)⟩]
      ⟨⟨8, 8, 8, 8, 8⟩, []⟩ (DateStr.valid 0)
      (DateStr.valid 0, ⟨DateStr.valid 0,
        [⟨DateStr.valid 0, "a", "A", 8, "c", false, "Fab", none, none⟩], 8⟩)
      (by decide)⟩

/-- Closed witness for `allocateJobs_job_hours` at the same 8-hour job. -/
theorem allocateJobs_job_hours_witness :
    (∀ j ∈ [(⟨"a", "A", 8, false, "c", "Fab", none, none, [],
        some (DateStr.valid 0)⟩ : Job)], 0 ≤ j.requiredHours) ∧
    (sumSegs (⟨"a", "A", 8, false, "c", "Fab", none, none, [⟨DateStr.valid 0, 8⟩],
        some (DateStr.valid 0)⟩ : Job).scheduledSegments ≤
      (⟨"a", "A", 8, false, "c", "Fab", none, none, [⟨DateStr.valid 0, 8⟩],
        some (DateStr.valid 0)⟩ : Job).requiredHours ∧
     (sumSegs (⟨"a", "A", 8, false, "c", "Fab", none, none, [⟨DateStr.valid 0, 8⟩],
        some (DateStr.valid 0)⟩ : Job).scheduledSegments =
       (⟨"a", "A", 8, false, "c", "Fab", none, none, [⟨DateStr.valid 0, 8⟩],
        some (DateStr.valid 0)⟩ : Job).requiredHours ∨
      (⟨"a", "A", 8, false, "c", "Fab", none, none, [⟨DateStr.valid 0, 8⟩],
        some (DateStr.valid 0)⟩ : Job).id ∈
        (allocateJobs 0
          [⟨"a", "A", 8, false, "c", "Fab", none, none, [], some (DateStr.valid 0)⟩]
          ⟨⟨8, 8, 8, 8, 8⟩, []⟩ (DateStr.valid 0)).warnings)) :=
  ⟨by decide,
    allocateJobs_job_hours 0
      [⟨"a", "A", 8, false, "c", "Fab", none, none, [], some (DateStr.valid 0)⟩]
      ⟨⟨8, 8, 8, 8, 8⟩, []⟩ (DateStr.valid 0) (by decide)
      ⟨"a", "A", 8, false, "c", "Fab", none, none, [⟨DateStr.valid 0, 8⟩],
        some (DateStr.valid 0)⟩ (by decide)⟩

/-- Closed witness for `allocateJobs_no_weekend`. -/
theorem allocateJobs_no_weekend_witness :
    (((DateStr.valid 0, (⟨DateStr.valid 0,
        [⟨DateStr.valid 0, "a", "A", 8, "c", false, "Fab", none, none⟩], 8⟩ : DayData)) ∈
        (allocateJobs 0
          [⟨"a", "A", 8, false, "c", "Fab", none, none, [], some (DateStr.valid 0)⟩]
          ⟨⟨8, 8, 8, 8, 8⟩, []⟩ (DateStr.valid 0)).allocatedSchedule) ∧
      (DateStr.valid 0).isSatSun = false) ∧
    (((⟨"a", "A", 8, false, "c", "Fab", none, none, [⟨DateStr.valid 0, 8⟩],
        some (DateStr.valid 0)⟩ : Job) ∈
        (allocateJobs 0
          [⟨"a", "A", 8, false, "c", "Fab", none, none, [], some (DateStr.valid 0)⟩]
          ⟨⟨8, 8, 8, 8, 8⟩, []⟩ (DateStr.valid 0)).updatedJobs) ∧
      ((⟨DateStr.valid 0, 8⟩ : Segment) ∈
        (⟨"a", "A", 8, false, "c", "Fab", none, none, [⟨DateStr.valid 0, 8⟩],
          some (DateStr.valid 0)⟩ : Job).scheduledSegments) ∧
      (DateStr.valid 0).isSatSun = false) :=
  ⟨⟨by decide,
    (allocateJobs_no_weekend 0
      [⟨"a", "A", 8, false, "c", "Fab", none, none, [], some (DateStr.valid 0)⟩]
      ⟨⟨8, 8, 8, 8, 8⟩, []⟩ (DateStr.valid 0)).1
      (DateStr.valid 0, ⟨DateStr.valid 0,
        [⟨DateStr.valid 0, "a", "A", 8, "c", false, "Fab", none, none⟩], 8⟩)
      (by decide)⟩,
   ⟨by decide, by decide,
    (allocateJobs_no_weekend 0
      [⟨"a", "A", 8, false, "c", "Fab", none, none, [], some (DateStr.valid 0)⟩]
      ⟨⟨8, 8, 8, 8, 8⟩, []⟩ (DateStr.valid 0)).2
      ⟨"a", "A", 8, false, "c", "Fab", none, none, [⟨DateStr.valid 0, 8⟩],
        some (DateStr.valid 0)⟩ (by decide)
      ⟨DateStr.valid 0, 8⟩ (by decide)⟩⟩

/-- Closed witness for `allocateJobs_terminates`: a 5-hour job against
all-zero capacity hits the 730-iteration bound, keeps no segments, and
records a warning. -/
theorem allocateJobs_terminates_witness :
    (∀ j ∈ [(⟨"z", "Z", 5, false, "c", "Fab", none, none, [], none⟩ : Job)],
      0 < j.requiredHours) ∧
    ((allocLoop ⟨"z", "Z", 5, false, "c", "Fab", none, none, [], none⟩
        zeroSettings maxSchedulingDays 0 5 [] []).iterations ≤ maxSchedulingDays) ∧
    ((⟨"z", "Z", 5, false, "c", "Fab", none, none, [], none⟩ : Job).scheduledSegments = [] ∧
      (⟨"z", "Z", 5, false, "c", "Fab", none, none, [], none⟩ : Job).id ∈
        (allocateJobs 0 [⟨"z", "Z", 5, false, "c", "Fab", none, none, [], none⟩]
          zeroSettings (DateStr.valid 0)).warnings) :=
  ⟨by decide,
   (allocateJobs_terminates 0
      [⟨"z", "Z", 5, false, "c", "Fab", none, none, [], none⟩]
      (DateStr.valid 0) (by decide)).1
      ⟨"z", "Z", 5, false, "c", "Fab", none, none, [], none⟩ zeroSettings 0 5 [] [],
   (allocateJobs_terminates 0
      [⟨"z", "Z", 5, false, "c", "Fab", none, none, [], none⟩]
      (DateStr.valid 0) (by decide)).2
      ⟨"z", "Z", 5, false, "c", "Fab", none, none, [], none⟩ (by decide)⟩

/-- Closed witness for `allocateJobs_idempotent`. -/
theorem allocateJobs_idempotent_witness :
    ((parseISO (DateStr.valid 0)).isSome = true) ∧
    ((allocateJobs 0
        (allocateJobs 0
          [⟨"a", "A", 8, false, "c", "Fab", none, none, [], some (DateStr.valid 0)⟩]
          ⟨⟨8, 8, 8, 8, 8⟩, []⟩ (DateStr.valid 0)).updatedJobs
        ⟨⟨8, 8, 8, 8, 8⟩, []⟩ (DateStr.valid 0)).allocatedSchedule =
      (allocateJobs 0
        [⟨"a", "A", 8, false, "c", "Fab", none, none, [], some (DateStr.valid 0)⟩]
        ⟨⟨8, 8, 8, 8, 8⟩, []⟩ (DateStr.valid 0)).allocatedSchedule ∧
     (allocateJobs 0
        (allocateJobs 0
          [⟨"a", "A", 8, false, "c", "Fab", none, none, [], some (DateStr.valid 0)⟩]
          ⟨⟨8, 8, 8, 8, 8⟩, []⟩ (DateStr.valid 0)).updatedJobs
        ⟨⟨8, 8, 8, 8, 8⟩, []⟩ (DateStr.valid 0)).updatedJobs =
      (allocateJobs 0
        [⟨"a", "A", 8, false, "c", "Fab", none, none, [], some (DateStr.valid 0)⟩]
        ⟨⟨8, 8, 8, 8, 8⟩, []⟩ (DateStr.valid 0)).updatedJobs) :=
  ⟨by decide,
    allocateJobs_idempotent 0
      [⟨"a", "A", 8, false, "c", "Fab", none, none, [], some (DateStr.valid 0)⟩]
      ⟨⟨8, 8, 8, 8, 8⟩, []⟩ (DateStr.valid 0) (by decide)⟩

/-- Closed witness for `allocateJobs_segment_order`. -/
theorem allocateJobs_segment_order_witness :
    ((⟨"a", "A", 8, false, "c", "Fab", none, none, [⟨DateStr.valid 0, 8⟩],
        some (DateStr.valid 0)⟩ : Job) ∈
      (allocateJobs 0
        [⟨"a", "A", 8, false, "c", "Fab", none, none, [], some (DateStr.valid 0)⟩]
        ⟨⟨8, 8, 8, 8, 8⟩, []⟩ (DateStr.valid 0)).updatedJobs) ∧
    ((⟨"a", "A", 8, false, "c", "Fab", none, none, [⟨DateStr.valid 0, 8⟩],
        some (DateStr.valid 0)⟩ : Job).scheduledSegments.Pairwise
        (fun s t => s.date.dayOf < t.date.dayOf ∧ s.date ≠ t.date) ∧
      ∀ s ∈ (⟨"a", "A", 8, false, "c", "Fab", none, none, [⟨DateStr.valid 0, 8⟩],
        some (DateStr.valid 0)⟩ : Job).scheduledSegments, 0 < s.hours ∧
        effectiveStart (parsePlanningStart 0 (DateStr.valid 0))
          ⟨"a", "A", 8, false, "c", "Fab", none, none, [⟨DateStr.valid 0, 8⟩],
            some (DateStr.valid 0)⟩ ≤ s.date.dayOf) :=
  ⟨by decide,
    allocateJobs_segment_order 0
      [⟨"a", "A", 8, false, "c", "Fab", none, none, [], some (DateStr.valid 0)⟩]
      ⟨⟨8, 8, 8, 8, 8⟩, []⟩ (DateStr.valid 0)
      ⟨"a", "A", 8, false, "c", "Fab", none, none, [⟨DateStr.valid 0, 8⟩],
        some (DateStr.valid 0)⟩ (by decide)⟩

end Witnesses

end LEGGCal
